import Mathlib

set_option autoImplicit false
set_option linter.unnecessarySimpa false
set_option linter.unusedSectionVars false
set_option linter.unusedVariables false

/-!
Shallow embedding of the QuantilyxDoc asynchronous rendering/caching core
(PageCache, IntelligentCache, ThreadPool/Task, RenderThread, LazyLoader),
translated from the C++ sources under src/src/core.  Qt hash maps are
modelled as insertion-ordered association lists (a deterministic refinement
of QHash's unspecified iteration order); QDateTime values are logical
integer timestamps, strictly increasing across operations.
-/

namespace QuantilyxDoc

section MapOps

variable {K V : Type} [DecidableEq K]

/-- First value stored under a key (QHash::find / QHash::value). -/
def findVal : List (K × V) → K → Option V
  | [], _ => none
  | (k, v) :: rest, key => if k = key then some v else findVal rest key

/-- Remove the first entry with the given key (QHash::erase / QHash::take). -/
def eraseKey : List (K × V) → K → List (K × V)
  | [], _ => []
  | (k, v) :: rest, key => if k = key then rest else (k, v) :: eraseKey rest key

/-- Replace the value stored under a key in place (mutating through a QHash
iterator keeps the entry's position). -/
def replaceVal : List (K × V) → K → V → List (K × V)
  | [], _, _ => []
  | (k, v) :: rest, key, nv =>
      if k = key then (k, nv) :: rest else (k, v) :: replaceVal rest key nv

/-- The keys of a map, in iteration order. -/
def keysOf (m : List (K × V)) : List K := m.map Prod.fst

/-- QList::removeAll: drop every occurrence of an element. -/
def removeAll (q : List K) (key : K) : List K :=
  q.filter (fun k => decide (k ≠ key))

/-- Sum of a per-value measure over a map (used for byte accounting). -/
def sumBy (f : V → Int) : List (K × V) → Int
  | [] => 0
  | e :: rest => f e.2 + sumBy f rest

theorem map_mem_removeAll {q : List K} {key x : K} :
    x ∈ removeAll q key ↔ x ∈ q ∧ x ≠ key := by
  simp [removeAll]

theorem map_length_removeAll_le (q : List K) (key : K) :
    (removeAll q key).length ≤ q.length :=
  List.length_filter_le _ q

theorem map_findVal_isSome_of_mem_keysOf {m : List (K × V)} {k : K}
    (h : k ∈ keysOf m) : (findVal m k).isSome := by
  induction m with
  | nil => simp [keysOf] at h
  | cons e rest ih =>
      simp only [keysOf, List.map_cons, List.mem_cons] at h
      by_cases he : e.1 = k
      · simp [findVal, he]
      · rcases h with h | h
        · exact absurd h.symm he
        · simp only [findVal, he, if_neg]
          exact ih h

theorem map_mem_keysOf_of_findVal {m : List (K × V)} {k : K} {v : V}
    (h : findVal m k = some v) : k ∈ keysOf m := by
  induction m with
  | nil => simp [findVal] at h
  | cons e rest ih =>
      simp only [findVal] at h
      by_cases he : e.1 = k
      · simp [keysOf, he]
      · simp only [he, if_neg, if_false] at h
        simp [keysOf] at ih ⊢
        rcases ih h with h2
        exact Or.inr h2

theorem map_eraseKey_sublist (m : List (K × V)) (k : K) :
    (eraseKey m k).Sublist m := by
  induction m with
  | nil => simp [eraseKey]
  | cons e rest ih =>
      by_cases he : e.1 = k
      · simpa [eraseKey, he] using List.sublist_cons_self e rest
      · simpa [eraseKey, he] using List.Sublist.cons₂ e ih

theorem map_keysOf_eraseKey_sublist (m : List (K × V)) (k : K) :
    (keysOf (eraseKey m k)).Sublist (keysOf m) :=
  List.Sublist.map Prod.fst (map_eraseKey_sublist m k)

theorem map_nodup_keysOf_eraseKey {m : List (K × V)} (k : K)
    (h : (keysOf m).Nodup) : (keysOf (eraseKey m k)).Nodup :=
  (map_keysOf_eraseKey_sublist m k).nodup h

theorem map_findVal_eraseKey_of_ne {m : List (K × V)} {k k' : K}
    (h : k' ≠ k) : findVal (eraseKey m k) k' = findVal m k' := by
  have h2 : ¬ k = k' := fun hc => h hc.symm
  induction m with
  | nil => simp [eraseKey]
  | cons e rest ih =>
      by_cases he : e.1 = k
      · simp [eraseKey, he, findVal, h2]
      · by_cases he' : e.1 = k'
        · simp [eraseKey, he, findVal, he', h]
        · simp [eraseKey, he, findVal, he', ih]

theorem map_findVal_eraseKey_self {m : List (K × V)} {k : K}
    (h : (keysOf m).Nodup) : findVal (eraseKey m k) k = none := by
  induction m with
  | nil => simp [eraseKey, findVal]
  | cons e rest ih =>
      simp only [keysOf, List.map_cons, List.nodup_cons] at h
      by_cases he : e.1 = k
      · simp only [eraseKey, he, if_pos]
        cases hf : findVal rest k with
        | none => rfl
        | some v =>
            exact absurd (he ▸ map_mem_keysOf_of_findVal hf) h.1
      · simp only [eraseKey, he, if_neg, findVal, if_false]
        exact ih h.2

theorem map_length_eraseKey_lt {m : List (K × V)} {k : K} {v : V}
    (h : findVal m k = some v) : (eraseKey m k).length < m.length := by
  induction m with
  | nil => simp [findVal] at h
  | cons e rest ih =>
      by_cases he : e.1 = k
      · simp [eraseKey, he]
      · simp only [findVal, he, if_neg, if_false] at h
        simpa [eraseKey, he] using Nat.succ_lt_succ (ih h)

theorem map_sumBy_eraseKey {f : V → Int} {m : List (K × V)} {k : K} {v : V}
    (h : findVal m k = some v) :
    sumBy f (eraseKey m k) = sumBy f m - f v := by
  induction m with
  | nil => simp [findVal] at h
  | cons e rest ih =>
      by_cases he : e.1 = k
      · simp only [findVal, he, if_pos, Option.some.injEq] at h
        simp [eraseKey, he, sumBy, h]
      · simp only [findVal, he, if_neg, if_false] at h
        simp only [eraseKey, he, if_neg, if_false, sumBy, ih h]
        ring

theorem map_sumBy_nonneg {f : V → Int} {m : List (K × V)}
    (hf : ∀ e ∈ m, 0 ≤ f e.2) : 0 ≤ sumBy f m := by
  induction m with
  | nil => simp [sumBy]
  | cons e rest ih =>
      have h0 : 0 ≤ f e.2 := hf e (by simp)
      have h1 : 0 ≤ sumBy f rest := ih (fun x hx => hf x (by simp [hx]))
      simp only [sumBy]
      linarith

theorem map_le_sumBy_of_findVal {f : V → Int} {m : List (K × V)} {k : K} {v : V}
    (hf : ∀ e ∈ m, 0 ≤ f e.2) (h : findVal m k = some v) :
    f v ≤ sumBy f m := by
  induction m with
  | nil => simp [findVal] at h
  | cons e rest ih =>
      by_cases he : e.1 = k
      · simp only [findVal, he, if_pos, Option.some.injEq] at h
        have hrest : 0 ≤ sumBy f rest :=
          map_sumBy_nonneg (fun x hx => hf x (by simp [hx]))
        simp only [sumBy, h]
        linarith
      · simp only [findVal, he, if_neg, if_false] at h
        have h0 : 0 ≤ f e.2 := hf e (by simp)
        have h1 := ih (fun x hx => hf x (by simp [hx])) h
        simp only [sumBy]
        linarith

theorem map_sumBy_append_single {f : V → Int} (m : List (K × V)) (k : K) (v : V) :
    sumBy f (m ++ [(k, v)]) = sumBy f m + f v := by
  induction m with
  | nil => simp [sumBy]
  | cons e rest ih => simp [sumBy, ih]; ring

theorem map_findVal_append_single_self {m : List (K × V)} {k : K} (v : V)
    (h : findVal m k = none) : findVal (m ++ [(k, v)]) k = some v := by
  induction m with
  | nil => simp [findVal]
  | cons e rest ih =>
      by_cases he : e.1 = k
      · rw [findVal, if_pos he] at h
        exact absurd h (by simp)
      · rw [findVal, if_neg he] at h
        rw [List.cons_append, findVal, if_neg he]
        exact ih h

theorem map_keysOf_replaceVal (m : List (K × V)) (k : K) (v : V) :
    keysOf (replaceVal m k v) = keysOf m := by
  induction m with
  | nil => simp [replaceVal]
  | cons e rest ih =>
      by_cases he : e.1 = k
      · simp [replaceVal, he, keysOf]
      · simp [replaceVal, he, keysOf] at ih ⊢
        exact ih

theorem map_findVal_replaceVal_self {m : List (K × V)} {k : K} {old : V} (v : V)
    (h : findVal m k = some old) : findVal (replaceVal m k v) k = some v := by
  induction m with
  | nil => simp [findVal] at h
  | cons e rest ih =>
      by_cases he : e.1 = k
      · simp [replaceVal, he, findVal]
      · simp only [findVal, he, if_neg, if_false] at h
        simp only [replaceVal, he, if_neg, if_false, findVal]
        exact ih h

theorem map_findVal_replaceVal_ne {m : List (K × V)} {k k' : K} (v : V)
    (h : k' ≠ k) : findVal (replaceVal m k v) k' = findVal m k' := by
  have h2 : ¬ k = k' := fun hc => h hc.symm
  induction m with
  | nil => simp [replaceVal]
  | cons e rest ih =>
      by_cases he : e.1 = k
      · simp [replaceVal, he, findVal, h2]
      · by_cases he' : e.1 = k'
        · simp [replaceVal, he, findVal, he', h]
        · simp [replaceVal, he, findVal, he', ih]

theorem map_findVal_eq_none_of_not_mem {m : List (K × V)} {k : K}
    (h : k ∉ keysOf m) : findVal m k = none := by
  cases hfv : findVal m k with
  | none => rfl
  | some v => exact absurd (map_mem_keysOf_of_findVal hfv) h

theorem map_sumBy_replaceVal {f : V → Int} {m : List (K × V)} {k : K} {old : V} (v : V)
    (h : findVal m k = some old) :
    sumBy f (replaceVal m k v) = sumBy f m - f old + f v := by
  induction m with
  | nil => simp [findVal] at h
  | cons e rest ih =>
      by_cases he : e.1 = k
      · simp only [findVal, he, if_pos, Option.some.injEq] at h
        simp [replaceVal, he, sumBy, h]
        ring
      · simp only [findVal, he, if_neg, if_false] at h
        simp only [replaceVal, he, if_neg, if_false, sumBy, ih h]
        ring

theorem map_keysOf_append_single (m : List (K × V)) (k : K) (v : V) :
    keysOf (m ++ [(k, v)]) = keysOf m ++ [k] := by
  simp [keysOf]

theorem map_nodup_keysOf_append_single {m : List (K × V)} {k : K} (v : V)
    (hnd : (keysOf m).Nodup) (h : findVal m k = none) :
    (keysOf (m ++ [(k, v)])).Nodup := by
  rw [map_keysOf_append_single]
  refine List.Nodup.append hnd (by simp) ?_
  intro a ha hb
  simp at hb
  subst hb
  have := map_findVal_isSome_of_mem_keysOf ha
  rw [h] at this
  simp at this

theorem map_mem_of_mem_eraseKey {m : List (K × V)} {k : K} {e : K × V}
    (h : e ∈ eraseKey m k) : e ∈ m :=
  (map_eraseKey_sublist m k).subset h

theorem map_findVal_of_mem_nodup {m : List (K × V)} {k : K} {v : V}
    (hnd : (keysOf m).Nodup) (h : (k, v) ∈ m) : findVal m k = some v := by
  induction m with
  | nil => simp at h
  | cons e rest ih =>
      simp only [keysOf, List.map_cons, List.nodup_cons] at hnd
      rcases List.mem_cons.mp h with h | h
      · simp [findVal, ← h]
      · by_cases he : e.1 = k
        · exfalso
          apply hnd.1
          rw [he]
          exact List.mem_map.mpr ⟨(k, v), h, rfl⟩
        · simp only [findVal, he, if_neg, if_false]
          exact ih hnd.2 h

end MapOps

namespace PageCache

/-- The slice of QImage state the page cache observes: dimensions, bit depth
and nullness; `tag` stands in for the pixel contents so distinct images stay
distinguishable. -/
structure QImage where
  width : Nat
  height : Nat
  depth : Nat
  isNull : Bool
  tag : Nat
deriving DecidableEq, Repr

def nullImage : QImage := { width := 0, height := 0, depth := 0, isNull := true, tag := 0 }

/-- PageCache::Private::calculateImageSizeBytes:
`width * height * (depth / 8)`, 0 for a null image. -/
def calculateImageSizeBytes (image : QImage) : Int :=
  if image.isNull then 0
  else ((image.width * image.height * (image.depth / 8) : Nat) : Int)

/-- PageCache::CacheKey.  `zoomLevel` is modelled as an exact rational;
`qFuzzyCompare` agrees with exact equality on the well-separated zoom values
exercised in this development. -/
structure CacheKey where
  documentId : Nat
  pageIndex : Int
  zoomLevel : ℚ
  rotation : Int
  targetW : Int
  targetH : Int
deriving DecidableEq, Repr

/-- PageCache::CachedItem. -/
structure CachedItem where
  image : QImage
  timestamp : Int
  accessCount : Int
deriving DecidableEq, Repr

/-- The private state of a PageCache: the hash map (insertion-ordered
association list), the LRU queue, and the two byte counters. -/
structure State where
  cacheMap : List (CacheKey × CachedItem)
  lruQueue : List CacheKey
  maxSizeBytes : Int
  currentSizeBytes : Int
deriving DecidableEq, Repr

/-- PageCache::Private's constructor: 50 MB default budget, empty cache. -/
def initialState : State :=
  { cacheMap := [], lruQueue := [], maxSizeBytes := 50 * 1024 * 1024, currentSizeBytes := 0 }

/-- PageCache::evictIfNecessary: while over budget and the LRU queue is
non-empty, dequeue the head; a dequeued key may be stale (already removed by
clearForDocument or put), in which case nothing is removed.  When the key is
live, Private::removeItem erases it, subtracts its size, and strips its
remaining occurrences from the queue. -/
def evictLoopPC (maxSize : Int) (m : List (CacheKey × CachedItem)) (size : Int)
    (q : List CacheKey) : List (CacheKey × CachedItem) × Int × List CacheKey :=
  match q with
  | [] => (m, size, [])
  | lruKey :: rest =>
      if maxSize < size then
        match findVal m lruKey with
        | some it =>
            evictLoopPC maxSize (eraseKey m lruKey)
              (size - calculateImageSizeBytes it.image) (removeAll rest lruKey)
        | none => evictLoopPC maxSize m size rest
      else (m, size, lruKey :: rest)
termination_by q.length
decreasing_by
  · have h := map_length_removeAll_le rest lruKey
    simp only [List.length_cons]
    omega
  · simp

def evictIfNecessary (st : State) : State :=
  let r := evictLoopPC st.maxSizeBytes st.cacheMap st.currentSizeBytes st.lruQueue
  { st with cacheMap := r.1, currentSizeBytes := r.2.1, lruQueue := r.2.2 }

/-- PageCache::put at logical time `now`. -/
def put (st : State) (now : Int) (key : CacheKey) (image : QImage) : State :=
  let imageSize := calculateImageSizeBytes image
  if imageSize = 0 then st
  else
    let st1 :=
      match findVal st.cacheMap key with
      | some existing =>
          { st with
            cacheMap := replaceVal st.cacheMap key
              { image := image, timestamp := now, accessCount := 1 }
            currentSizeBytes :=
              st.currentSizeBytes + (imageSize - calculateImageSizeBytes existing.image)
            lruQueue := removeAll st.lruQueue key ++ [key] }
      | none =>
          { st with
            cacheMap := st.cacheMap ++ [(key, { image := image, timestamp := now, accessCount := 1 })]
            currentSizeBytes := st.currentSizeBytes + imageSize
            lruQueue := st.lruQueue ++ [key] }
    evictIfNecessary st1

/-- PageCache::get at logical time `now`: returns the image (null on a miss)
together with the updated state. -/
def get (st : State) (now : Int) (key : CacheKey) : QImage × State :=
  match findVal st.cacheMap key with
  | some it =>
      (it.image,
        { st with
          cacheMap := replaceVal st.cacheMap key
            { it with accessCount := it.accessCount + 1, timestamp := now }
          lruQueue := removeAll st.lruQueue key ++ [key] })
  | none => (nullImage, st)

/-- PageCache::contains. -/
def containsKey (st : State) (key : CacheKey) : Bool :=
  (findVal st.cacheMap key).isSome

/-- PageCache::clear. -/
def clear (st : State) : State :=
  { st with cacheMap := [], lruQueue := [], currentSizeBytes := 0 }

/-- PageCache::setMaxSizeBytes: install the new ceiling, then enforce it. -/
def setMaxSizeBytes (st : State) (size : Int) : State :=
  evictIfNecessary { st with maxSizeBytes := size }

/-- The body of PageCache::clearForDocument, iterating the hash map.  On a
matching entry the code runs `it = cacheMap.erase(it)` and THEN
`lruQueue.removeAll(it.key())`: the key removed from the LRU queue is the
*successor* entry's, not the erased one's.  When the erased entry was the last
(`erase` returned `end()`), `it.key()` is undefined behaviour in C++; it is
modelled as removing nothing (no input used below exercises that case). -/
def clearForDocumentLoop (documentId : Nat) :
    List (CacheKey × CachedItem) → Int → List CacheKey →
    List (CacheKey × CachedItem) × Int × List CacheKey
  | [], size, q => ([], size, q)
  | (k, it) :: rest, size, q =>
      if k.documentId = documentId then
        let q1 :=
          match rest with
          | [] => q
          | e2 :: _ => removeAll q e2.1
        clearForDocumentLoop documentId rest (size - calculateImageSizeBytes it.image) q1
      else
        let r := clearForDocumentLoop documentId rest size q
        ((k, it) :: r.1, r.2.1, r.2.2)

def clearForDocument (st : State) (documentId : Nat) : State :=
  let r := clearForDocumentLoop documentId st.cacheMap st.currentSizeBytes st.lruQueue
  { st with cacheMap := r.1, currentSizeBytes := r.2.1, lruQueue := r.2.2 }

/-- Well-formedness of a PageCache state: the byte counter is the sum of the
stored images' sizes, the hash map's keys are unique, and every live key
appears in the LRU queue. -/
def WF (st : State) : Prop :=
  st.currentSizeBytes = sumBy (fun it => calculateImageSizeBytes it.image) st.cacheMap ∧
  (keysOf st.cacheMap).Nodup ∧
  (∀ k, k ∈ keysOf st.cacheMap → k ∈ st.lruQueue)

theorem pc_calcImageSize_nonneg (image : QImage) : 0 ≤ calculateImageSizeBytes image := by
  unfold calculateImageSizeBytes
  split
  · exact le_refl 0
  · exact Int.natCast_nonneg _

/-- Through the eviction loop, a key whose stored image (if any) is strictly
larger than the byte ceiling never survives: while it is present the tracked
total stays above the ceiling, so the loop keeps dequeuing until the key
itself is dequeued and removed (and it is never re-inserted). -/
theorem pc_evict_oversized (maxSize : Int) (key : CacheKey) :
    ∀ (n : Nat) (q : List CacheKey) (m : List (CacheKey × CachedItem)) (size : Int),
      q.length ≤ n →
      size = sumBy (fun it => calculateImageSizeBytes it.image) m →
      (keysOf m).Nodup →
      (∀ k, k ∈ keysOf m → k ∈ q) →
      (∀ it, findVal m key = some it → maxSize < calculateImageSizeBytes it.image) →
      findVal (evictLoopPC maxSize m size q).1 key = none := by
  intro n
  induction n with
  | zero =>
      intro q m size hlen hsum hnd hcov hbig
      have hq : q = [] := List.length_eq_zero.mp (Nat.le_zero.mp hlen)
      subst hq
      rw [evictLoopPC]
      apply map_findVal_eq_none_of_not_mem
      intro hmem
      exact absurd (hcov key hmem) (List.not_mem_nil key)
  | succ n ih =>
      intro q m size hlen hsum hnd hcov hbig
      cases q with
      | nil =>
          rw [evictLoopPC]
          apply map_findVal_eq_none_of_not_mem
          intro hmem
          exact absurd (hcov key hmem) (List.not_mem_nil key)
      | cons lruKey rest =>
          rw [evictLoopPC]
          by_cases hsz : maxSize < size
          · rw [if_pos hsz]
            cases hfv : findVal m lruKey with
            | some it =>
                simp only [List.length_cons, Nat.add_le_add_iff_right] at hlen
                by_cases hkey : lruKey = key
                · subst hkey
                  have habsent : findVal (eraseKey m lruKey) lruKey = none :=
                    map_findVal_eraseKey_self hnd
                  apply ih
                  · exact le_trans (map_length_removeAll_le rest lruKey) hlen
                  · rw [hsum, map_sumBy_eraseKey hfv]
                  · exact map_nodup_keysOf_eraseKey lruKey hnd
                  · intro k hk
                    have hkne : k ≠ lruKey := by
                      intro h
                      subst h
                      have := map_findVal_isSome_of_mem_keysOf hk
                      rw [habsent] at this
                      simp at this
                    have hkm : k ∈ keysOf m :=
                      (map_keysOf_eraseKey_sublist m lruKey).subset hk
                    have := hcov k hkm
                    rcases List.mem_cons.mp this with h | h
                    · exact absurd h hkne
                    · exact map_mem_removeAll.mpr ⟨h, hkne⟩
                  · intro it2 h2
                    rw [habsent] at h2
                    exact absurd h2 (by simp)
                · have hkeyne : key ≠ lruKey := fun h => hkey h.symm
                  apply ih
                  · exact le_trans (map_length_removeAll_le rest lruKey) hlen
                  · rw [hsum, map_sumBy_eraseKey hfv]
                  · exact map_nodup_keysOf_eraseKey lruKey hnd
                  · intro k hk
                    have hkne : k ≠ lruKey := by
                      intro h
                      subst h
                      have := map_findVal_isSome_of_mem_keysOf hk
                      rw [map_findVal_eraseKey_self hnd] at this
                      simp at this
                    have hkm : k ∈ keysOf m :=
                      (map_keysOf_eraseKey_sublist m lruKey).subset hk
                    rcases List.mem_cons.mp (hcov k hkm) with h | h
                    · exact absurd h hkne
                    · exact map_mem_removeAll.mpr ⟨h, hkne⟩
                  · intro it2 h2
                    rw [map_findVal_eraseKey_of_ne hkeyne] at h2
                    exact hbig it2 h2
            | none =>
                simp only [List.length_cons, Nat.add_le_add_iff_right] at hlen
                apply ih
                · exact hlen
                · exact hsum
                · exact hnd
                · intro k hk
                  rcases List.mem_cons.mp (hcov k hk) with h | h
                  · subst h
                    have := map_findVal_isSome_of_mem_keysOf hk
                    rw [hfv] at this
                    simp at this
                  · exact h
                · exact hbig
          · rw [if_neg hsz]
            cases hfvk : findVal m key with
            | none => exact hfvk ▸ rfl
            | some it =>
                exfalso
                have h1 := hbig it hfvk
                have h2 : calculateImageSizeBytes it.image ≤ size := by
                  rw [hsum]
                  exact map_le_sumBy_of_findVal
                    (fun e _ => pc_calcImageSize_nonneg e.2.image) hfvk
                exact hsz (lt_of_lt_of_le h1 h2)

/-- PageCache::put of an image strictly larger than the byte ceiling: the
insert happens, but the eviction pass then removes the freshly inserted
image itself, so the key is absent when put returns. -/
theorem pc_put_oversized (st : State) (now : Int) (key : CacheKey) (image : QImage)
    (hwf : WF st) (hmax : 0 ≤ st.maxSizeBytes)
    (hbig : st.maxSizeBytes < calculateImageSizeBytes image) :
    containsKey (put st now key image) key = false := by
  obtain ⟨hsum, hnd, hcov⟩ := hwf
  have hszpos : 0 < calculateImageSizeBytes image := lt_of_le_of_lt hmax hbig
  have hne : ¬ calculateImageSizeBytes image = 0 := by omega
  unfold put
  rw [if_neg hne]
  cases hfv : findVal st.cacheMap key with
  | some existing =>
      simp only [evictIfNecessary, containsKey]
      rw [pc_evict_oversized st.maxSizeBytes key
        (removeAll st.lruQueue key ++ [key]).length _ _ _ le_rfl ?_ ?_ ?_ ?_]
      · rfl
      · rw [hsum, map_sumBy_replaceVal _ hfv]
        ring
      · rw [map_keysOf_replaceVal]
        exact hnd
      · intro k hk
        rw [map_keysOf_replaceVal] at hk
        by_cases hkk : k = key
        · subst hkk
          simp
        · exact List.mem_append_left _ (map_mem_removeAll.mpr ⟨hcov k hk, hkk⟩)
      · intro it2 h2
        rw [map_findVal_replaceVal_self _ hfv] at h2
        cases h2
        exact hbig
  | none =>
      simp only [evictIfNecessary, containsKey]
      rw [pc_evict_oversized st.maxSizeBytes key
        (st.lruQueue ++ [key]).length _ _ _ le_rfl ?_ ?_ ?_ ?_]
      · rfl
      · rw [hsum, map_sumBy_append_single]
      · exact map_nodup_keysOf_append_single _ hnd hfv
      · intro k hk
        rw [map_keysOf_append_single] at hk
        rcases List.mem_append.mp hk with h | h
        · exact List.mem_append_left _ (hcov k h)
        · simp at h
          subst h
          simp
      · intro it2 h2
        rw [map_findVal_append_single_self _ hfv] at h2
        cases h2
        exact hbig

end PageCache

namespace IntelligentCache

/-- The QVariant payloads the cache's size heuristic distinguishes (the
`canConvert` cascade of Private::calculateItemSizeBytes, modelled as matching
on the stored shape). -/
inductive VariantV
  | str (s : String)
  | image (img : PageCache.QImage)
  | bytes (content : List Nat)
  | other (tag : Nat)
deriving DecidableEq, Repr

/-- Byte size of a variant payload (`QString`: length × sizeof(QChar);
`QImage::sizeInBytes`; `QByteArray::size`; anything else contributes 0 and is
also what the source's `QVariant::sizeInBytes()` call over metadata values is
modelled as). -/
def VariantV.sizeInBytes : VariantV → Int
  | .str s => (s.length : Int) * 2
  | .image img => ((img.width * img.height * (img.depth / 8) : Nat) : Int)
  | .bytes content => (content.length : Int)
  | .other _ => 0

/-- IntelligentCache::CachedItem. -/
structure CachedItem where
  data : VariantV
  sizeBytes : Int
  lastAccessTime : Int
  creationTime : Int
  accessCount : Int
  priority : ℚ
  key : String
  metadata : List (String × VariantV)
deriving DecidableEq, Repr

def sumMeta : List (String × VariantV) → Int
  | [] => 0
  | (k, v) :: rest => (k.length : Int) * 2 + v.sizeInBytes + sumMeta rest

/-- IntelligentCache::Private::calculateItemSizeBytes: data payload size plus
key-string and metadata overhead. -/
def calculateItemSizeBytes (item : CachedItem) : Int :=
  item.data.sizeInBytes + (item.key.length : Int) * 2 + sumMeta item.metadata

inductive EvictionPolicy
  | LRU
  | LFU
  | Priority
  | Predictive
deriving DecidableEq, Repr

/-- The private state of an IntelligentCache. -/
structure State where
  cacheData : List (String × CachedItem)
  maxSizeBytes : Int
  currentSizeBytes : Int
  evictionPolicy : EvictionPolicy
deriving DecidableEq, Repr

/-- IntelligentCache::Private's constructor: 50 MB default, LRU policy. -/
def emptyCache : State :=
  { cacheData := [], maxSizeBytes := 50 * 1024 * 1024, currentSizeBytes := 0,
    evictionPolicy := .LRU }

/-- The LRU victim scan of Private::evictIfNeeded: `oldestTime` starts at the
scan's current time and only a strictly older entry replaces the running
best, so the scan returns the first entry attaining the strict minimum and an
entry stamped at the scan time itself is never a candidate. -/
def selectLRU (now : Int) (m : List (String × CachedItem)) : Option String :=
  (m.foldl
    (fun acc e =>
      if e.2.lastAccessTime < acc.2 then (some e.1, e.2.lastAccessTime) else acc)
    ((none : Option String), now)).1

/-- INT_MAX, the LFU scan's starting minimum. -/
def intMax : Int := 2147483647

/-- The LFU victim scan: first entry with the strictly smallest access count
below INT_MAX. -/
def selectLFU (m : List (String × CachedItem)) : Option String :=
  (m.foldl
    (fun acc e =>
      if e.2.accessCount < acc.2 then (some e.1, e.2.accessCount) else acc)
    ((none : Option String), intMax)).1

/-- `p` is below the running minimum; `none` stands for the starting sentinel
`std::numeric_limits<qreal>::max()`, which every reachable priority is far
below. -/
def belowMin (p : ℚ) : Option ℚ → Bool
  | none => true
  | some m => decide (p < m)

/-- The Priority victim scan: first entry with the strictly smallest
priority score. -/
def selectPriority (m : List (String × CachedItem)) : Option String :=
  (m.foldl
    (fun acc e =>
      if belowMin e.2.priority acc.2 then (some e.1, some e.2.priority) else acc)
    ((none : Option String), (none : Option ℚ))).1

/-- Victim choice per policy; the source's Predictive arm duplicates the LRU
scan verbatim (documented fallback). -/
def selectVictim (policy : EvictionPolicy) (now : Int)
    (m : List (String × CachedItem)) : Option String :=
  match policy with
  | .LRU => selectLRU now m
  | .LFU => selectLFU m
  | .Priority => selectPriority m
  | .Predictive => selectLRU now m

/-- Private::evictIfNeeded's loop: while over budget and non-empty, pick a
victim per policy and take it out; when no victim is found the code logs
"Cache size exceeded limit but no item found for eviction!" and breaks —
the returned Bool records that warning.  (`QHash::take` of a key the scan
just returned always finds it; the impossible miss is mapped onto the same
warn-and-break exit.) -/
def evictLoopIC (maxSize now : Int) (policy : EvictionPolicy)
    (m : List (String × CachedItem)) (size : Int) :
    List (String × CachedItem) × Int × Bool :=
  if maxSize < size ∧ m ≠ [] then
    match selectVictim policy now m with
    | some keyToEvict =>
        match h2 : findVal m keyToEvict with
        | some item =>
            evictLoopIC maxSize now policy (eraseKey m keyToEvict) (size - item.sizeBytes)
        | none => (m, size, true)
    | none => (m, size, true)
  else (m, size, false)
termination_by m.length
decreasing_by
  · exact map_length_eraseKey_lt h2

/-- The result of IntelligentCache::put: the new state, the C++ return value,
and whether the eviction pass hit its warning branch. -/
structure PutResult where
  state : State
  result : Bool
  warned : Bool
deriving DecidableEq, Repr

/-- The CachedItem that IntelligentCache::put builds and stores: fresh
timestamps, access count 1, default priority 1.0. -/
def putItem (insertNow : Int) (key : String) (data : VariantV) (itemSize : Int)
    (metadata : List (String × VariantV)) : CachedItem :=
  { data := data, sizeBytes := itemSize, lastAccessTime := insertNow,
    creationTime := insertNow, accessCount := 1, priority := 1, key := key,
    metadata := metadata }

/-- IntelligentCache::put.  `insertNow` is the `QDateTime::currentDateTime()`
read when the item is stamped; `evictNow` the one read by the eviction scan
that runs before put returns (the source calls the clock twice, so
`insertNow ≤ evictNow`, with equality when the clock did not advance). -/
def put (st : State) (insertNow evictNow : Int) (key : String) (data : VariantV)
    (sizeHint : Int) (metadata : List (String × VariantV)) : PutResult :=
  let itemSize :=
    if 0 < sizeHint then sizeHint
    else calculateItemSizeBytes
      { data := data, sizeBytes := 0, lastAccessTime := 0, creationTime := 0,
        accessCount := 0, priority := 0, key := key, metadata := metadata }
  let base :=
    match findVal st.cacheData key with
    | some existing =>
        { st with
          cacheData := eraseKey st.cacheData key
          currentSizeBytes := st.currentSizeBytes - existing.sizeBytes }
    | none => st
  let item := putItem insertNow key data itemSize metadata
  let st1 :=
    { base with
      cacheData := base.cacheData ++ [(key, item)]
      currentSizeBytes := base.currentSizeBytes + itemSize }
  let r := evictLoopIC st1.maxSizeBytes evictNow st1.evictionPolicy st1.cacheData
    st1.currentSizeBytes
  { state := { st1 with cacheData := r.1, currentSizeBytes := r.2.1 },
    result := true, warned := r.2.2 }

/-- IntelligentCache::get at logical time `now`: bookkeeping on a hit is
last-access time, access count, and a 0.1 priority bump. -/
def get (st : State) (now : Int) (key : String) : Option VariantV × State :=
  match findVal st.cacheData key with
  | some it =>
      let it2 : CachedItem :=
        { it with
          lastAccessTime := now
          accessCount := it.accessCount + 1
          priority := it.priority + 1/10 }
      (some it.data, { st with cacheData := replaceVal st.cacheData key it2 })
  | none => (none, st)

/-- IntelligentCache::contains. -/
def containsIC (st : State) (key : String) : Bool :=
  (findVal st.cacheData key).isSome

/-- IntelligentCache::remove. -/
def remove (st : State) (key : String) : State × Bool :=
  match findVal st.cacheData key with
  | some it =>
      ({ st with
         cacheData := eraseKey st.cacheData key
         currentSizeBytes := st.currentSizeBytes - it.sizeBytes }, true)
  | none => (st, false)

/-- IntelligentCache::clear. -/
def clearIC (st : State) : State :=
  { st with cacheData := [], currentSizeBytes := 0 }

/-- IntelligentCache::setMaxSizeBytes: ignores non-positive sizes and
unchanged ceilings, otherwise installs the ceiling and evicts. -/
def setMaxSize (st : State) (now size : Int) : State :=
  if size ≤ 0 then st
  else if st.maxSizeBytes = size then st
  else
    let st1 := { st with maxSizeBytes := size }
    let r := evictLoopIC st1.maxSizeBytes now st1.evictionPolicy st1.cacheData
      st1.currentSizeBytes
    { st1 with cacheData := r.1, currentSizeBytes := r.2.1 }

/-- IntelligentCache::hintAccess at logical time `now`: a 0.5 priority bump
and a fresh last-access time for a present key, otherwise a no-op. -/
def hintAccess (st : State) (now : Int) (key : String) : State :=
  match findVal st.cacheData key with
  | some it =>
      { st with
        cacheData := replaceVal st.cacheData key
          { it with priority := it.priority + 1/2, lastAccessTime := now } }
  | none => st

/-- Well-formedness of an IntelligentCache state: exact byte accounting,
non-negative stored sizes, unique keys. -/
def WFIC (st : State) : Prop :=
  st.currentSizeBytes = sumBy (fun it => it.sizeBytes) st.cacheData ∧
  (∀ e ∈ st.cacheData, 0 ≤ e.2.sizeBytes) ∧
  (keysOf st.cacheData).Nodup

/-- Invariant of the LRU victim scan's fold: a selected key belongs to an
entry strictly older than the scan's reference time (the running minimum
starts at that time and only decreases). -/
theorem ic_selectFold_aux (now : Int) :
    ∀ (m : List (String × CachedItem)) (best : Option String) (oldest : Int),
      oldest ≤ now →
      ∀ k, (m.foldl
        (fun acc e =>
          if e.2.lastAccessTime < acc.2 then (some e.1, e.2.lastAccessTime) else acc)
        (best, oldest)).1 = some k →
        best = some k ∨ ∃ e ∈ m, e.1 = k ∧ e.2.lastAccessTime < now := by
  intro m
  induction m with
  | nil =>
      intro best oldest hle k h
      simp only [List.foldl_nil] at h
      exact Or.inl h
  | cons e rest ih =>
      intro best oldest hle k h
      rw [List.foldl_cons] at h
      by_cases hlt : e.2.lastAccessTime < oldest
      · rw [if_pos hlt] at h
        rcases ih (some e.1) e.2.lastAccessTime (le_of_lt (lt_of_lt_of_le hlt hle)) k h with h1 | h1
        · right
          exact ⟨e, List.mem_cons_self e rest, Option.some.inj h1, lt_of_lt_of_le hlt hle⟩
        · right
          obtain ⟨e2, he2, hk, hlt2⟩ := h1
          exact ⟨e2, List.mem_cons_of_mem e he2, hk, hlt2⟩
      · rw [if_neg hlt] at h
        rcases ih best oldest hle k h with h1 | h1
        · exact Or.inl h1
        · right
          obtain ⟨e2, he2, hk, hlt2⟩ := h1
          exact ⟨e2, List.mem_cons_of_mem e he2, hk, hlt2⟩

theorem ic_selectLRU_spec {now : Int} {m : List (String × CachedItem)} {k : String}
    (h : selectLRU now m = some k) :
    ∃ e ∈ m, e.1 = k ∧ e.2.lastAccessTime < now := by
  unfold selectLRU at h
  rcases ic_selectFold_aux now m none now le_rfl k h with h1 | h1
  · exact absurd h1 (by simp)
  · exact h1

/-- One warn-and-break exit of the eviction loop: over budget, non-empty, and
the victim scan finds nothing. -/
theorem ic_evictLoop_warn (maxSize now : Int) (policy : EvictionPolicy)
    (m : List (String × CachedItem)) (size : Int)
    (hif : maxSize < size ∧ m ≠ []) (hsel : selectVictim policy now m = none) :
    evictLoopIC maxSize now policy m size = (m, size, true) := by
  rw [evictLoopIC, if_pos hif, hsel]

/-- One eviction step of the loop: over budget, non-empty, victim found. -/
theorem ic_evictLoop_step (maxSize now : Int) (policy : EvictionPolicy)
    (m : List (String × CachedItem)) (size : Int)
    (hif : maxSize < size ∧ m ≠ []) (k : String) (v : CachedItem)
    (hsel : selectVictim policy now m = some k) (hfv : findVal m k = some v) :
    evictLoopIC maxSize now policy m size =
      evictLoopIC maxSize now policy (eraseKey m k) (size - v.sizeBytes) := by
  rw [evictLoopIC, if_pos hif, hsel]
  split
  next item heq =>
    cases heq
    split
    next item2 heq2 =>
      rw [hfv] at heq2
      cases heq2
      rfl
    next heq2 =>
      rw [hfv] at heq2
      simp at heq2
  next heq =>
    simp at heq

/-- Through the eviction loop under the LRU policy, an entry stamped at the
scan's reference time is never the victim; if its size alone exceeds the
ceiling, the loop evicts strictly-older entries until no candidate is left,
then logs the warning and returns with the entry present and the total still
above the ceiling. -/
theorem ic_evict_oversized (maxSize now : Int) (key : String) (item : CachedItem)
    (hnotold : ¬ item.lastAccessTime < now) (hbig : maxSize < item.sizeBytes) :
    ∀ (n : Nat) (m : List (String × CachedItem)) (size : Int),
      m.length ≤ n →
      size = sumBy (fun it => it.sizeBytes) m →
      (∀ e ∈ m, 0 ≤ e.2.sizeBytes) →
      (keysOf m).Nodup →
      findVal m key = some item →
      findVal (evictLoopIC maxSize now .LRU m size).1 key = some item ∧
        maxSize < (evictLoopIC maxSize now .LRU m size).2.1 ∧
        (evictLoopIC maxSize now .LRU m size).2.2 = true := by
  intro n
  induction n with
  | zero =>
      intro m size hlen hsum hnn hnd hkey
      have hm : m = [] := List.length_eq_zero.mp (Nat.le_zero.mp hlen)
      subst hm
      simp [findVal] at hkey
  | succ n ih =>
      intro m size hlen hsum hnn hnd hkey
      have hmne : m ≠ [] := by
        intro h
        subst h
        simp [findVal] at hkey
      have hsz : maxSize < size := by
        have h2 : item.sizeBytes ≤ size := by
          rw [hsum]
          exact map_le_sumBy_of_findVal hnn hkey
        exact lt_of_lt_of_le hbig h2
      cases hsel : selectVictim EvictionPolicy.LRU now m with
      | none =>
          rw [ic_evictLoop_warn maxSize now _ m size ⟨hsz, hmne⟩ hsel]
          exact ⟨hkey, hsz, rfl⟩
      | some k =>
          have hselLRU : selectLRU now m = some k := hsel
          obtain ⟨e, hem, hek, helt⟩ := ic_selectLRU_spec hselLRU
          have hfv2 : findVal m k = some e.2 := by
            have h3 := map_findVal_of_mem_nodup hnd (show (e.1, e.2) ∈ m by simpa using hem)
            rwa [hek] at h3
          have hkne : key ≠ k := by
            intro h
            subst h
            rw [hkey] at hfv2
            cases hfv2
            exact hnotold helt
          rw [ic_evictLoop_step maxSize now _ m size ⟨hsz, hmne⟩ k e.2 hsel hfv2]
          apply ih
          · have := map_length_eraseKey_lt hfv2
            omega
          · rw [hsum, map_sumBy_eraseKey hfv2]
          · intro e2 he2
            exact hnn e2 (map_mem_of_mem_eraseKey he2)
          · exact map_nodup_keysOf_eraseKey k hnd
          · rw [map_findVal_eraseKey_of_ne hkne]
            exact hkey

/-- IntelligentCache::put of an item whose size hint exceeds the byte ceiling
under the LRU policy, when the clock has not advanced between the insert and
the eviction scan (`insertNow = evictNow = now`): put returns true, the item
survives (the scan only considers strictly older entries), the eviction pass
ends in its warning branch, and the cache is left above its ceiling. -/
theorem ic_put_oversized (st : State) (now : Int) (key : String) (data : VariantV)
    (sizeHint : Int) (metadata : List (String × VariantV))
    (hwf : WFIC st) (hpol : st.evictionPolicy = .LRU)
    (hmax : 0 ≤ st.maxSizeBytes) (hbig : st.maxSizeBytes < sizeHint) :
    (put st now now key data sizeHint metadata).result = true ∧
      containsIC (put st now now key data sizeHint metadata).state key = true ∧
      (put st now now key data sizeHint metadata).state.maxSizeBytes <
        (put st now now key data sizeHint metadata).state.currentSizeBytes ∧
      (put st now now key data sizeHint metadata).warned = true := by
  obtain ⟨hsum, hnn, hnd⟩ := hwf
  have hpos : 0 < sizeHint := lt_of_le_of_lt hmax hbig
  have hno : ¬ (putItem now key data sizeHint metadata).lastAccessTime < now := by
    simp [putItem]
  have hbig2 : st.maxSizeBytes < (putItem now key data sizeHint metadata).sizeBytes := hbig
  cases hfv : findVal st.cacheData key with
  | some existing =>
      have hbase : findVal (eraseKey st.cacheData key) key = none :=
        map_findVal_eraseKey_self hnd
      have h1 : st.currentSizeBytes - existing.sizeBytes + sizeHint =
          sumBy (fun it => it.sizeBytes)
            (eraseKey st.cacheData key ++ [(key, putItem now key data sizeHint metadata)]) := by
        rw [map_sumBy_append_single, map_sumBy_eraseKey hfv, hsum]
        simp [putItem]
      have h2 : ∀ e ∈ eraseKey st.cacheData key ++ [(key, putItem now key data sizeHint metadata)],
          0 ≤ e.2.sizeBytes := by
        intro e he
        rcases List.mem_append.mp he with h2 | h2
        · exact hnn e (map_mem_of_mem_eraseKey h2)
        · simp only [List.mem_singleton] at h2
          subst h2
          exact le_of_lt hpos
      have h3 := map_nodup_keysOf_append_single (putItem now key data sizeHint metadata)
        (map_nodup_keysOf_eraseKey key hnd) hbase
      have h4 := map_findVal_append_single_self (putItem now key data sizeHint metadata) hbase
      have h := ic_evict_oversized st.maxSizeBytes now key
        (putItem now key data sizeHint metadata) hno hbig2
        (eraseKey st.cacheData key ++ [(key, putItem now key data sizeHint metadata)]).length
        (eraseKey st.cacheData key ++ [(key, putItem now key data sizeHint metadata)])
        (st.currentSizeBytes - existing.sizeBytes + sizeHint)
        le_rfl h1 h2 h3 h4
      simp only [put, hfv, if_pos hpos, hpol]
      refine ⟨trivial, ?_, h.2.1, h.2.2⟩
      simp [containsIC, h.1]
  | none =>
      have h1 : st.currentSizeBytes + sizeHint =
          sumBy (fun it => it.sizeBytes)
            (st.cacheData ++ [(key, putItem now key data sizeHint metadata)]) := by
        rw [map_sumBy_append_single, hsum]
        simp [putItem]
      have h2 : ∀ e ∈ st.cacheData ++ [(key, putItem now key data sizeHint metadata)],
          0 ≤ e.2.sizeBytes := by
        intro e he
        rcases List.mem_append.mp he with h2 | h2
        · exact hnn e h2
        · simp only [List.mem_singleton] at h2
          subst h2
          exact le_of_lt hpos
      have h3 := map_nodup_keysOf_append_single (putItem now key data sizeHint metadata) hnd hfv
      have h4 := map_findVal_append_single_self (putItem now key data sizeHint metadata) hfv
      have h := ic_evict_oversized st.maxSizeBytes now key
        (putItem now key data sizeHint metadata) hno hbig2
        (st.cacheData ++ [(key, putItem now key data sizeHint metadata)]).length
        (st.cacheData ++ [(key, putItem now key data sizeHint metadata)])
        (st.currentSizeBytes + sizeHint)
        le_rfl h1 h2 h3 h4
      simp only [put, hfv, if_pos hpos, hpol]
      refine ⟨trivial, ?_, h.2.1, h.2.2⟩
      simp [containsIC, h.1]

end IntelligentCache

namespace ThreadPoolM

/-- Task::State. -/
inductive TaskState
  | Queued
  | Running
  | Finished
  | Canceled
deriving DecidableEq, Repr

/-- The observable slice of Task::Private: the lifecycle state and the
cancel flag. -/
structure Task where
  state : TaskState
  canceled : Bool
deriving DecidableEq, Repr

/-- A freshly constructed task (Task::Private's constructor). -/
def freshTask : Task := { state := .Queued, canceled := false }

/-- Task::cancel: succeeds exactly when the state is Queued at the moment of
the call, in which case the flag is set and the state becomes Canceled;
otherwise the task is left untouched and false is returned. -/
def Task.cancel (t : Task) : Task × Bool :=
  if t.state = .Queued then ({ t with canceled := true, state := .Canceled }, true)
  else (t, false)

/-- The entry critical section of Task::run: a canceled task is marked
Canceled and the body is skipped (the returned Bool says whether the body
runs); otherwise the state becomes Running. -/
def Task.runEntry (t : Task) : Task × Bool :=
  if t.canceled then ({ t with state := .Canceled }, false)
  else ({ t with state := .Running }, true)

/-- The exit critical section of Task::run: after the body (exceptions caught
and logged), the state is set to Finished unconditionally. -/
def Task.runExit (t : Task) : Task := { t with state := .Finished }

/-- Task::run from entry to return: the final task state and whether the
runnable body was invoked. -/
def Task.run (t : Task) : Task × Bool :=
  let e := t.runEntry
  if e.2 then (e.1.runExit, true) else (e.1, false)

/-- Whether a state is terminal. -/
def isTerminal : TaskState → Bool
  | .Finished => true
  | .Canceled => true
  | _ => false

/-- The observable slice of ThreadPool::Private: the tracked tasks (index =
submission order) and the two lifetime counters. -/
structure PoolState where
  tasks : List Task
  totalSubmitted : Nat
  totalCompleted : Nat
deriving DecidableEq, Repr

def initialPool : PoolState := { tasks := [], totalSubmitted := 0, totalCompleted := 0 }

/-- ThreadPool::submitTask: record the task as queued and bump
totalSubmitted. -/
def submitTask (p : PoolState) : PoolState :=
  { p with tasks := p.tasks ++ [freshTask], totalSubmitted := p.totalSubmitted + 1 }

/-- A worker thread executing Task::run on task `i` to completion.  Task::run
mutates only the task's own state: no ThreadPool field changes on this path,
because Private::updateTaskState — the only code that would move the task
between the state sets and increment totalCompleted on a finish — has no
call site anywhere in the repository. -/
def workerRunTask (p : PoolState) (i : Nat) : PoolState :=
  { p with tasks := p.tasks.set i ((p.tasks.getD i freshTask).run).1 }

/-- ThreadPool::cancelAllQueuedTasks: cancel every queued task and, for each
success, move it to the Canceled set and bump totalCompleted (the one place
in the repository that increments the counter). -/
def cancelAllQueuedTasks (p : PoolState) : PoolState × Nat :=
  let n := (p.tasks.filter (fun t => decide (t.state = .Queued))).length
  ({ p with
     tasks := p.tasks.map (fun t => (t.cancel).1)
     totalCompleted := p.totalCompleted + n }, n)

/-- The exit test of ThreadPool::waitForDone's wait loop: the loop keeps
waiting while `totalCompleted < totalSubmitted` and the timeout has not
elapsed, so the call returns before its timeout exactly when this holds. -/
def waitForDoneExitsEarly (p : PoolState) : Bool :=
  decide (p.totalSubmitted ≤ p.totalCompleted)

end ThreadPoolM

namespace RenderThreadM

/-- The page abstraction RenderThread consumes: an index and a natural size
in points (QSizeF). -/
structure PageRef where
  pageIndex : Int
  widthPts : ℚ
  heightPts : ℚ
deriving DecidableEq, Repr

/-- RenderThread::RenderRequest; a null page pointer is `none`. -/
structure RenderRequest where
  page : Option PageRef
  targetW : Int
  targetH : Int
  zoom : ℚ
  rotation : Int
  requestId : Nat
  canceled : Bool
deriving DecidableEq, Repr

/-- RenderThread::RenderResult; the produced image is summarized by its
pixel dimensions (0×0 when no image was produced). -/
structure RenderResult where
  requestId : Nat
  success : Bool
  errorMessage : String
  imageW : Int
  imageH : Int
deriving DecidableEq, Repr

def failResult (id : Nat) (msg : String) : RenderResult :=
  { requestId := id, success := false, errorMessage := msg, imageW := 0, imageH := 0 }

/-- qRound: round half away from zero (all values rounded here are
non-negative). -/
def qRound (x : ℚ) : Int := Int.floor (x + 1/2)

/-- RenderThread::Private::processRequest.  Validation happens here, when the
worker dequeues the request: cancel flag, null page, empty page size.  A
non-positive target dimension is NOT rejected — its scale factor falls back
to 1.0.  The placeholder rasterization always succeeds on a positive render
size (allocation failure is out of the model); rotation only transforms
coordinates. -/
def processRequest (req : RenderRequest) : RenderResult :=
  if req.canceled then failResult req.requestId "Request was canceled."
  else
    match req.page with
    | none => failResult req.requestId "Invalid page pointer."
    | some page =>
        if page.widthPts ≤ 0 ∨ page.heightPts ≤ 0 then
          failResult req.requestId "Page has invalid size."
        else
          let scaleX : ℚ := if 0 < req.targetW then (req.targetW : ℚ) / page.widthPts else 1
          let scaleY : ℚ := if 0 < req.targetH then (req.targetH : ℚ) / page.heightPts else 1
          let scale := min scaleX scaleY
          let renderW := qRound (page.widthPts * scale)
          let renderH := qRound (page.heightPts * scale)
          if renderW ≤ 0 ∨ renderH ≤ 0 then
            failResult req.requestId "Failed to create image buffer."
          else
            { requestId := req.requestId, success := true, errorMessage := "",
              imageW := renderW, imageH := renderH }

/-- The request queue of RenderThread::Private. -/
structure RState where
  requestQueue : List RenderRequest
deriving DecidableEq, Repr

/-- RenderThread::submitRequest: unconditionally enqueue and wake the worker;
no validation of any kind happens at submission. -/
def submitRequest (st : RState) (req : RenderRequest) : RState :=
  { st with requestQueue := st.requestQueue ++ [req] }

/-- RenderThread::cancelRequest: mark a matching queued entry's cancel
flag (the first one found); an absent id changes nothing. -/
def cancelRequest (st : RState) (requestId : Nat) : RState :=
  { st with
    requestQueue := st.requestQueue.map
      (fun r => if r.requestId = requestId then { r with canceled := true } else r) }

end RenderThreadM

namespace LazyLoaderM

/-- LazyLoader::ResourceType. -/
inductive ResourceType
  | PageContent
  | PageThumbnail
  | EmbeddedImage
  | Font
  | Annotation
  | FormField
deriving DecidableEq, Repr

/-- LazyLoader::LoadRequest over its comparable fields (the two std::function
callbacks admit no comparison and play no role in queue management; the
parameter map is an opaque payload).  `requestTime` is a logical QDateTime:
-1 is the default-constructed, invalid QDateTime, and enqueue stamps a fresh
non-negative time. -/
structure LoadRequest where
  key : String
  rtype : ResourceType
  params : Nat
  priority : Int
  requestTime : Int
deriving DecidableEq, Repr

/-- The strict comparator of Private::sortQueue: higher priority first, then
earlier request time. -/
def reqLT (a b : LoadRequest) : Bool :=
  decide (b.priority < a.priority) ||
    (decide (a.priority = b.priority) && decide (a.requestTime < b.requestTime))

def insertReq (r : LoadRequest) : List LoadRequest → List LoadRequest
  | [] => [r]
  | x :: xs => if reqLT x r then x :: insertReq r xs else r :: x :: xs

/-- std::sort with Private::sortQueue's comparator.  On every queue this
development builds the (priority, requestTime) pairs are pairwise distinct,
so the comparator is a strict total order and every correct sort produces
the same unique arrangement; insertion sort realizes it. -/
def sortQueue (q : List LoadRequest) : List LoadRequest := q.foldr insertReq []

/-- The private state of a LazyLoader. -/
structure LState where
  requestQueue : List LoadRequest
  activeRequests : List String
  maxConcurrent : Int
  activeCount : Int
deriving DecidableEq, Repr

/-- LazyLoader::Private's constructor: 4 concurrent loads. -/
def initialLoader : LState :=
  { requestQueue := [], activeRequests := [], maxConcurrent := 4, activeCount := 0 }

/-- LazyLoader::queueRequest at logical time `now`.  The duplicate test is
`requestQueue.contains(request) || activeRequests.contains(request.key)`:
whole-request equality against the queue (no operator== for LoadRequest is
declared anywhere in the repository; memberwise comparison of the comparable
fields is modelled) but key-only equality against the active set.  A
non-duplicate is stamped with the current time, enqueued, and the queue is
re-sorted. -/
def queueRequest (st : LState) (now : Int) (request : LoadRequest) : LState :=
  if request ∈ st.requestQueue ∨ request.key ∈ st.activeRequests then st
  else
    let req := { request with requestTime := now }
    { st with requestQueue := sortQueue (st.requestQueue ++ [req]) }

/-- LazyLoader::processNextRequest: below the concurrency limit and with a
non-empty queue, dequeue the head, mark its key active, bump the active
count, and hand the request to the worker pool (returned). -/
def processNextRequest (st : LState) : LState × Option LoadRequest :=
  if st.maxConcurrent ≤ st.activeCount ∨ st.requestQueue = [] then (st, none)
  else
    match st.requestQueue with
    | [] => (st, none)
    | request :: rest =>
        ({ st with
           requestQueue := rest
           activeRequests := st.activeRequests ++ [request.key]
           activeCount := st.activeCount + 1 }, some request)

/-- Dispatch up to `n` requests in sequence, collecting them in dispatch
order. -/
def dispatchSeq : Nat → LState → List LoadRequest
  | 0, _ => []
  | Nat.succ n, st =>
      match processNextRequest st with
      | (st2, some r) => r :: dispatchSeq n st2
      | (_, none) => []

end LazyLoaderM

/-! Concrete scenarios exercised by the claim theorems. -/

/-- A 400,000-byte image: 500 × 200 pixels at 32 bits per pixel. -/
def img400k (tag : Nat) : PageCache.QImage :=
  { width := 500, height := 200, depth := 32, isNull := false, tag := tag }

/-- A 2,000,000-byte image: 500 × 1000 pixels at 32 bits per pixel. -/
def img2M : PageCache.QImage :=
  { width := 500, height := 1000, depth := 32, isNull := false, tag := 99 }

/-- A 100-byte image: 10 × 10 pixels at 8 bits per pixel. -/
def img100 (tag : Nat) : PageCache.QImage :=
  { width := 10, height := 10, depth := 8, isNull := false, tag := tag }

/-- A 400-byte image: 20 × 20 pixels at 8 bits per pixel. -/
def img400 (tag : Nat) : PageCache.QImage :=
  { width := 20, height := 20, depth := 8, isNull := false, tag := tag }

/-- A page-cache key for document `d`, page `p` (zoom 1.0, no rotation). -/
def pcKey (d : Nat) (p : Int) : PageCache.CacheKey :=
  { documentId := d, pageIndex := p, zoomLevel := 1, rotation := 0, targetW := 500, targetH := 200 }

/-- A fresh PageCache whose ceiling was set to 1,000,000 bytes. -/
def pc1M : PageCache.State := PageCache.setMaxSizeBytes PageCache.initialState 1000000

/-- C1 scenario after inserting A, B, C (three 400,000-byte images). -/
def c1AfterC : PageCache.State :=
  PageCache.put (PageCache.put (PageCache.put pc1M 1 (pcKey 1 0) (img400k 10))
    2 (pcKey 1 1) (img400k 11)) 3 (pcKey 1 2) (img400k 12)

/-- C1 scenario after also inserting D. -/
def c1AfterD : PageCache.State := PageCache.put c1AfterC 4 (pcKey 1 3) (img400k 13)

/-- C4 scenario: budget 2000; insert A(doc 1, 100 B), B(doc 2, 400 B),
C(doc 1, 100 B), D(doc 3, 400 B). -/
def c4AfterPuts : PageCache.State :=
  PageCache.put (PageCache.put (PageCache.put (PageCache.put
    (PageCache.setMaxSizeBytes PageCache.initialState 2000)
    1 (pcKey 1 0) (img100 1)) 2 (pcKey 2 0) (img400 2)) 3 (pcKey 1 1) (img100 3))
    4 (pcKey 3 0) (img400 4)

/-- C4 scenario: then clear document 1 and lower the ceiling to 700 bytes. -/
def c4Final : PageCache.State :=
  PageCache.setMaxSizeBytes (PageCache.clearForDocument c4AfterPuts 1) 700

/-- An empty PageCache with a 1,000,000-byte ceiling, as a literal state. -/
def pcEmpty1M : PageCache.State :=
  { cacheMap := [], lruQueue := [], maxSizeBytes := 1000000, currentSizeBytes := 0 }

/-- An empty IntelligentCache with a 100-byte ceiling, LRU policy. -/
def ic100 : IntelligentCache.State :=
  { cacheData := [], maxSizeBytes := 100, currentSizeBytes := 0, evictionPolicy := .LRU }

/-- A one-item PageCache state (key (1,0) ↦ a 100-byte image). -/
def c9Item : PageCache.CachedItem := { image := img100 1, timestamp := 1, accessCount := 1 }

def pcOneItem : PageCache.State :=
  { cacheMap := [(pcKey 1 0, c9Item)], lruQueue := [pcKey 1 0],
    maxSizeBytes := 2000, currentSizeBytes := 100 }

/-- A one-item IntelligentCache state ("x" ↦ a 10-byte string item). -/
def c9ItemIC : IntelligentCache.CachedItem :=
  { data := .str "hello", sizeBytes := 10, lastAccessTime := 1, creationTime := 1,
    accessCount := 1, priority := 1, key := "x", metadata := [] }

def icOneItem : IntelligentCache.State :=
  { cacheData := [("x", c9ItemIC)], maxSizeBytes := 2000, currentSizeBytes := 10,
    evictionPolicy := .LRU }

/-- A loader request with a given key and priority (thumbnail type, invalid
request time as default-constructed). -/
def llReq (k : String) (p : Int) : LazyLoaderM.LoadRequest :=
  { key := k, rtype := .PageThumbnail, params := 0, priority := p, requestTime := -1 }

/-- C6 scenario: four requests queued with priorities [5, 1, 5, 3]. -/
def c6Queued : LazyLoaderM.LState :=
  LazyLoaderM.queueRequest (LazyLoaderM.queueRequest (LazyLoaderM.queueRequest
    (LazyLoaderM.queueRequest LazyLoaderM.initialLoader 1 (llReq "r1" 5))
    2 (llReq "r2" 1)) 3 (llReq "r3" 5)) 4 (llReq "r4" 3)

/-- C7 scenario: key "k" queued at priority 1, then queued again at
priority 5. -/
def c7State : LazyLoaderM.LState :=
  LazyLoaderM.queueRequest
    (LazyLoaderM.queueRequest LazyLoaderM.initialLoader 1 (llReq "k" 1)) 2 (llReq "k" 5)

/-- A malformed render request: null page. -/
def badRenderReq : RenderThreadM.RenderRequest :=
  { page := none, targetW := 100, targetH := 100, zoom := 1, rotation := 0,
    requestId := 7, canceled := false }

/-- A render request with a valid page but zero target size. -/
def zeroSizeRenderReq : RenderThreadM.RenderRequest :=
  { page := some { pageIndex := 0, widthPts := 612, heightPts := 792 },
    targetW := 0, targetH := 0, zoom := 1, rotation := 0, requestId := 8,
    canceled := false }

/-- A task observed Running (its body in flight, flag clear). -/
def runningTask : ThreadPoolM.Task := { state := .Running, canceled := false }

/-- A task whose cancel flag was set while still queued. -/
def canceledTask : ThreadPoolM.Task := { state := .Queued, canceled := true }

attribute [simp] findVal eraseKey replaceVal keysOf removeAll sumBy
attribute [simp] PageCache.calculateImageSizeBytes PageCache.initialState
attribute [simp] PageCache.setMaxSizeBytes PageCache.evictIfNecessary
attribute [simp] PageCache.evictLoopPC PageCache.put PageCache.get
attribute [simp] PageCache.containsKey PageCache.clear PageCache.clearForDocument
attribute [simp] PageCache.clearForDocumentLoop PageCache.nullImage PageCache.WF
attribute [simp] IntelligentCache.put IntelligentCache.putItem IntelligentCache.get
attribute [simp] IntelligentCache.containsIC IntelligentCache.evictLoopIC
attribute [simp] IntelligentCache.selectVictim IntelligentCache.selectLRU
attribute [simp] IntelligentCache.selectLFU IntelligentCache.selectPriority
attribute [simp] IntelligentCache.belowMin IntelligentCache.WFIC
attribute [simp] IntelligentCache.VariantV.sizeInBytes IntelligentCache.sumMeta
attribute [simp] IntelligentCache.calculateItemSizeBytes IntelligentCache.intMax
attribute [simp] ThreadPoolM.Task.cancel ThreadPoolM.Task.run ThreadPoolM.Task.runEntry
attribute [simp] ThreadPoolM.Task.runExit ThreadPoolM.freshTask ThreadPoolM.isTerminal
attribute [simp] ThreadPoolM.initialPool ThreadPoolM.submitTask ThreadPoolM.workerRunTask
attribute [simp] ThreadPoolM.waitForDoneExitsEarly
attribute [simp] RenderThreadM.processRequest RenderThreadM.submitRequest
attribute [simp] RenderThreadM.failResult RenderThreadM.qRound
attribute [simp] LazyLoaderM.queueRequest LazyLoaderM.processNextRequest
attribute [simp] LazyLoaderM.sortQueue LazyLoaderM.insertReq LazyLoaderM.reqLT
attribute [simp] LazyLoaderM.dispatchSeq LazyLoaderM.initialLoader
attribute [simp] img400k img2M img100 img400 pcKey pc1M c1AfterC c1AfterD
attribute [simp] c4AfterPuts c4Final pcEmpty1M ic100 c9Item pcOneItem
attribute [simp] c9ItemIC icOneItem llReq c6Queued c7State badRenderReq
attribute [simp] zeroSizeRenderReq runningTask canceledTask

/-- Claim C1, counterexample: in the spec's concrete scenario (1,000,000-byte
ceiling; 400,000-byte images A, B, C, D inserted in that order), B has been
evicted once D is inserted — the claim's "B, C and D are all still present"
is false on the code. -/
theorem C1_counterexample_B_evicted :
    PageCache.containsKey c1AfterD (pcKey 1 1) = false := by
  simp

/-- Claim C1 (amended): three 400,000-byte images already exceed the
1,000,000-byte ceiling, so inserting C evicts A (the least recently used);
inserting D then evicts B; after the four puts exactly C and D remain and
the tracked total is 800,000 ≤ 1,000,000. -/
theorem C1_lru_scenario_amended :
    PageCache.containsKey c1AfterC (pcKey 1 0) = false ∧
    PageCache.containsKey c1AfterC (pcKey 1 1) = true ∧
    PageCache.containsKey c1AfterC (pcKey 1 2) = true ∧
    c1AfterC.currentSizeBytes = 800000 ∧
    PageCache.containsKey c1AfterD (pcKey 1 0) = false ∧
    PageCache.containsKey c1AfterD (pcKey 1 1) = false ∧
    PageCache.containsKey c1AfterD (pcKey 1 2) = true ∧
    PageCache.containsKey c1AfterD (pcKey 1 3) = true ∧
    c1AfterD.currentSizeBytes = 800000 ∧
    c1AfterD.currentSizeBytes ≤ c1AfterD.maxSizeBytes := by
  refine ⟨by simp, by simp, by simp, by simp, by simp, by simp, by simp, by simp, by simp, by simp⟩

/-- Claim C2, counterexample: putting a single 2,000,000-byte image into an
empty PageCache with a 1,000,000-byte ceiling does not leave the item present
over budget — the eviction loop evicts the freshly inserted image itself and
the cache ends empty, within budget, with no warning logged on this path. -/
theorem C2_counterexample_oversized_evicted :
    PageCache.containsKey (PageCache.put pc1M 1 (pcKey 7 0) img2M) (pcKey 7 0) = false ∧
    (PageCache.put pc1M 1 (pcKey 7 0) img2M).currentSizeBytes = 0 := by
  refine ⟨by simp, by simp⟩

/-- Claim C2 (amended): an item larger than the entire budget is never
rejected — but the two caches then behave differently.  PageCache's eviction
loop cannot get under budget while the oversized image is present, so it
evicts the new image itself: after put the key is absent.  IntelligentCache
(LRU policy, clock not advanced between the insert and the eviction scan)
admits the item, logs the eviction warning, and returns with the cache above
its configured budget. -/
theorem C2_oversized_put_amended :
    (∀ (st : PageCache.State) (now : Int) (key : PageCache.CacheKey)
        (image : PageCache.QImage),
      PageCache.WF st → 0 ≤ st.maxSizeBytes →
      st.maxSizeBytes < PageCache.calculateImageSizeBytes image →
      PageCache.containsKey (PageCache.put st now key image) key = false) ∧
    (∀ (st : IntelligentCache.State) (now : Int) (key : String)
        (data : IntelligentCache.VariantV) (sizeHint : Int)
        (metadata : List (String × IntelligentCache.VariantV)),
      IntelligentCache.WFIC st → st.evictionPolicy = .LRU →
      0 ≤ st.maxSizeBytes → st.maxSizeBytes < sizeHint →
      (IntelligentCache.put st now now key data sizeHint metadata).result = true ∧
        IntelligentCache.containsIC
          (IntelligentCache.put st now now key data sizeHint metadata).state key = true ∧
        (IntelligentCache.put st now now key data sizeHint metadata).state.maxSizeBytes <
          (IntelligentCache.put st now now key data sizeHint metadata).state.currentSizeBytes ∧
        (IntelligentCache.put st now now key data sizeHint metadata).warned = true) :=
  ⟨fun st now key image hwf hmax hbig =>
      PageCache.pc_put_oversized st now key image hwf hmax hbig,
    fun st now key data sizeHint metadata hwf hpol hmax hbig =>
      IntelligentCache.ic_put_oversized st now key data sizeHint metadata hwf hpol hmax hbig⟩

/-- Claim C2 witness: the amended statement applied to an empty PageCache with
a 1,000,000-byte ceiling and a 2,000,000-byte image, and to an empty
IntelligentCache with a 100-byte ceiling and a 200-byte item. -/
theorem C2_oversized_put_amended_witness :
    PageCache.containsKey (PageCache.put pcEmpty1M 1 (pcKey 7 0) img2M) (pcKey 7 0) = false ∧
    ((IntelligentCache.put ic100 1 1 "x" (.other 0) 200 []).result = true ∧
      IntelligentCache.containsIC
        (IntelligentCache.put ic100 1 1 "x" (.other 0) 200 []).state "x" = true ∧
      (IntelligentCache.put ic100 1 1 "x" (.other 0) 200 []).state.maxSizeBytes <
        (IntelligentCache.put ic100 1 1 "x" (.other 0) 200 []).state.currentSizeBytes ∧
      (IntelligentCache.put ic100 1 1 "x" (.other 0) 200 []).warned = true) := by
  constructor
  · exact C2_oversized_put_amended.1 pcEmpty1M 1 (pcKey 7 0) img2M
      (by refine ⟨rfl, by simp, by simp⟩) (by simp) (by simp)
  · exact C2_oversized_put_amended.2 ic100 1 "x" (.other 0) 200 []
      (by refine ⟨rfl, by simp, by simp⟩) rfl (by simp) (by simp)

/-- Claim C3: Task::run only mutates the task's own state — no code path
increments the pool's totalCompleted when a task finishes
(Private::updateTaskState has no call site) — so after submitting one task
and running it to Finished, every task is terminal yet totalCompleted is 0,
totalSubmitted is 1, and waitForDone's exit test fails: the call waits out
its full timeout instead of returning. -/
theorem C3_completed_counter_never_advances :
    (∀ (p : ThreadPoolM.PoolState) (i : Nat),
      (ThreadPoolM.workerRunTask p i).totalCompleted = p.totalCompleted ∧
      (ThreadPoolM.workerRunTask p i).totalSubmitted = p.totalSubmitted) ∧
    ((ThreadPoolM.workerRunTask (ThreadPoolM.submitTask ThreadPoolM.initialPool) 0).tasks.all
        (fun t => ThreadPoolM.isTerminal t.state) = true ∧
      (ThreadPoolM.workerRunTask (ThreadPoolM.submitTask ThreadPoolM.initialPool) 0).totalSubmitted = 1 ∧
      (ThreadPoolM.workerRunTask (ThreadPoolM.submitTask ThreadPoolM.initialPool) 0).totalCompleted = 0 ∧
      ThreadPoolM.waitForDoneExitsEarly
        (ThreadPoolM.workerRunTask (ThreadPoolM.submitTask ThreadPoolM.initialPool) 0) = false) :=
  ⟨fun p i => ⟨rfl, rfl⟩, by decide⟩

/-- Claim C4: after the puts A(doc 1, 100 B), B(doc 2, 400 B), C(doc 1, 100 B),
D(doc 3, 400 B) under a 2000-byte ceiling, clearForDocument(1) removes A and C
but — because it reads `it.key()` after `erase(it)` — strips B's and D's keys
from the LRU queue instead of A's and C's; lowering the ceiling to 700 then
finds only stale queue entries, evicts nothing, and returns with the tracked
total 800 above the 700-byte budget even though each surviving item (400 B)
is well under budget.  The byte-sum invariant itself still holds. -/
theorem C4_clearForDocument_budget_violation :
    c4Final.maxSizeBytes = 700 ∧
    c4Final.currentSizeBytes = 800 ∧
    c4Final.maxSizeBytes < c4Final.currentSizeBytes ∧
    PageCache.containsKey c4Final (pcKey 2 0) = true ∧
    PageCache.containsKey c4Final (pcKey 3 0) = true ∧
    c4Final.cacheMap.map (fun e => PageCache.calculateImageSizeBytes e.2.image) = [400, 400] ∧
    c4Final.currentSizeBytes =
      sumBy (fun it => PageCache.calculateImageSizeBytes it.image) c4Final.cacheMap := by
  refine ⟨by simp, by simp, by simp, by simp, by simp, by simp, by simp⟩

/-- Claim C5, counterexample: a render request with a null page IS placed into
the RenderThread's queue by submitRequest — nothing is validated or rejected
at submission, refuting "never placed in the queue / immediate failure". -/
theorem C5_counterexample_malformed_enqueued :
    (RenderThreadM.submitRequest { requestQueue := [] } badRenderReq).requestQueue =
      [badRenderReq] := rfl

/-- Claim C5 (amended): submitRequest enqueues every request unconditionally;
a null-page request fails only when the worker dequeues and processes it
(success = false, "Invalid page pointer.", no image produced); and a zero or
negative target size is not rejected at all — the scale factor for a
non-positive dimension falls back to 1.0 and rendering succeeds. -/
theorem C5_malformed_request_amended :
    (∀ (st : RenderThreadM.RState) (req : RenderThreadM.RenderRequest),
      (RenderThreadM.submitRequest st req).requestQueue = st.requestQueue ++ [req]) ∧
    (∀ req : RenderThreadM.RenderRequest, req.canceled = false → req.page = none →
      RenderThreadM.processRequest req =
        RenderThreadM.failResult req.requestId "Invalid page pointer.") ∧
    (RenderThreadM.processRequest zeroSizeRenderReq).success = true := by
  refine ⟨fun st req => rfl, ?_, by norm_num [Int.floor_eq_zero_iff]⟩
  intro req hc hp
  simp [hc, hp]

/-- Claim C5 witness: the amended statement applied to the null-page request
and the empty queue. -/
theorem C5_malformed_request_amended_witness :
    (RenderThreadM.submitRequest { requestQueue := [] } badRenderReq).requestQueue =
      [] ++ [badRenderReq] ∧
    RenderThreadM.processRequest badRenderReq =
      RenderThreadM.failResult badRenderReq.requestId "Invalid page pointer." := by
  constructor
  · exact C5_malformed_request_amended.1 { requestQueue := [] } badRenderReq
  · exact C5_malformed_request_amended.2.1 badRenderReq rfl rfl

/-- Claim C6: four requests enqueued with priorities [5, 1, 5, 3] and no
intervening hints are dispatched in priority order [5, 5, 3, 1], the two
priority-5 requests in their original relative enqueue order (r1 before r3). -/
theorem C6_dispatch_priority_order :
    (LazyLoaderM.dispatchSeq 4 c6Queued).map (fun r => (r.key, r.priority)) =
      [("r1", 5), ("r3", 5), ("r4", 3), ("r2", 1)] := by
  decide

/-- Claim C7: queueRequest's duplicate test compares whole requests against
the queue (and re-stamps requestTime on enqueue), not keys, so queueing key
"k" at priority 1 and then again at priority 5 leaves TWO queued entries with
the same key — enqueue is not idempotent per key, against the documented
no-op contract. -/
theorem C7_duplicate_key_enqueued_twice :
    c7State.requestQueue.map (fun r => (r.key, r.priority)) = [("k", 5), ("k", 1)] := by
  decide

/-- Claim C8: Task::cancel returns true exactly when the task is Queued at the
call (the task then reads Canceled with its flag set); on any other state it
returns false and leaves the task untouched; a task whose flag was set before
it started never runs its body; and a task that entered Running with a clear
flag finishes normally (state Finished, body ran). -/
theorem C8_cancel_iff_queued :
    (∀ t : ThreadPoolM.Task, (t.cancel).2 = true ↔ t.state = .Queued) ∧
    (∀ t : ThreadPoolM.Task, t.state ≠ .Queued → t.cancel = (t, false)) ∧
    (∀ t : ThreadPoolM.Task, t.state = .Queued →
      (t.cancel).1 = { state := .Canceled, canceled := true }) ∧
    (∀ t : ThreadPoolM.Task, t.canceled = true →
      t.run = ({ t with state := .Canceled }, false)) ∧
    (∀ t : ThreadPoolM.Task, t.canceled = false →
      t.run = ({ t with state := .Finished }, true)) := by
  refine ⟨fun t => ?_, fun t h => ?_, fun t h => ?_, fun t h => ?_, fun t h => ?_⟩
  · obtain ⟨s, c⟩ := t
    cases s <;> simp
  · obtain ⟨s, c⟩ := t
    cases s <;> simp_all
  · obtain ⟨s, c⟩ := t
    cases s <;> simp_all
  · obtain ⟨s, c⟩ := t
    cases s <;> simp_all
  · obtain ⟨s, c⟩ := t
    cases s <;> simp_all

/-- Claim C8 witness: the statement applied to a queued task, a running task
and a queued-then-canceled task. -/
theorem C8_cancel_iff_queued_witness :
    ((ThreadPoolM.freshTask.cancel).2 = true ↔ ThreadPoolM.freshTask.state = .Queued) ∧
    runningTask.cancel = (runningTask, false) ∧
    (ThreadPoolM.freshTask.cancel).1 = { state := .Canceled, canceled := true } ∧
    canceledTask.run = ({ canceledTask with state := .Canceled }, false) ∧
    runningTask.run = ({ runningTask with state := .Finished }, true) :=
  ⟨C8_cancel_iff_queued.1 ThreadPoolM.freshTask,
    C8_cancel_iff_queued.2.1 runningTask (by simp),
    C8_cancel_iff_queued.2.2.1 ThreadPoolM.freshTask rfl,
    C8_cancel_iff_queued.2.2.2.1 canceledTask rfl,
    C8_cancel_iff_queued.2.2.2.2 runningTask rfl⟩

/-- Claim C9: get on a present key, in both caches, returns the stored value
and changes neither membership, nor any stored value, nor the byte counters —
only the hit item's bookkeeping (PageCache: access count, timestamp, position
at the recent end of the LRU queue; IntelligentCache: last-access time,
access count, priority +0.1). -/
theorem C9_get_frame_effect :
    (∀ (st : PageCache.State) (now : Int) (key : PageCache.CacheKey)
        (it : PageCache.CachedItem),
      findVal st.cacheMap key = some it →
      (PageCache.get st now key).1 = it.image ∧
      keysOf (PageCache.get st now key).2.cacheMap = keysOf st.cacheMap ∧
      findVal (PageCache.get st now key).2.cacheMap key =
        some { it with accessCount := it.accessCount + 1, timestamp := now } ∧
      (∀ k2, k2 ≠ key →
        findVal (PageCache.get st now key).2.cacheMap k2 = findVal st.cacheMap k2) ∧
      (PageCache.get st now key).2.currentSizeBytes = st.currentSizeBytes ∧
      (PageCache.get st now key).2.maxSizeBytes = st.maxSizeBytes ∧
      (PageCache.get st now key).2.lruQueue = removeAll st.lruQueue key ++ [key]) ∧
    (∀ (st : IntelligentCache.State) (now : Int) (key : String)
        (it : IntelligentCache.CachedItem),
      findVal st.cacheData key = some it →
      (IntelligentCache.get st now key).1 = some it.data ∧
      keysOf (IntelligentCache.get st now key).2.cacheData = keysOf st.cacheData ∧
      findVal (IntelligentCache.get st now key).2.cacheData key =
        some { it with lastAccessTime := now, accessCount := it.accessCount + 1, priority := it.priority + 1/10 } ∧
      (∀ k2, k2 ≠ key →
        findVal (IntelligentCache.get st now key).2.cacheData k2 = findVal st.cacheData k2) ∧
      (IntelligentCache.get st now key).2.currentSizeBytes = st.currentSizeBytes ∧
      (IntelligentCache.get st now key).2.maxSizeBytes = st.maxSizeBytes) := by
  constructor
  · intro st now key it h
    refine ⟨?_, ?_, ?_, ?_, ?_, ?_, ?_⟩
    · simp only [PageCache.get, h]
    · simp only [PageCache.get, h]
      exact map_keysOf_replaceVal _ _ _
    · simp only [PageCache.get, h]
      exact map_findVal_replaceVal_self _ h
    · intro k2 hk2
      simp only [PageCache.get, h]
      exact map_findVal_replaceVal_ne _ hk2
    · simp only [PageCache.get, h]
    · simp only [PageCache.get, h]
    · simp only [PageCache.get, h]
  · intro st now key it h
    refine ⟨?_, ?_, ?_, ?_, ?_, ?_⟩
    · simp only [IntelligentCache.get, h]
    · simp only [IntelligentCache.get, h]
      exact map_keysOf_replaceVal _ _ _
    · simp only [IntelligentCache.get, h]
      exact map_findVal_replaceVal_self _ h
    · intro k2 hk2
      simp only [IntelligentCache.get, h]
      exact map_findVal_replaceVal_ne _ hk2
    · simp only [IntelligentCache.get, h]
    · simp only [IntelligentCache.get, h]

/-- Claim C9 witness: the statement applied to one-item states of both
caches. -/
theorem C9_get_frame_effect_witness :
    (PageCache.get pcOneItem 5 (pcKey 1 0)).1 = c9Item.image ∧
    (PageCache.get pcOneItem 5 (pcKey 1 0)).2.currentSizeBytes = pcOneItem.currentSizeBytes ∧
    (IntelligentCache.get icOneItem 5 "x").1 = some c9ItemIC.data ∧
    (IntelligentCache.get icOneItem 5 "x").2.currentSizeBytes = icOneItem.currentSizeBytes := by
  have h1 := C9_get_frame_effect.1 pcOneItem 5 (pcKey 1 0) c9Item (by simp)
  have h2 := C9_get_frame_effect.2 icOneItem 5 "x" c9ItemIC (by simp)
  exact ⟨h1.1, h1.2.2.2.2.1, h2.1, h2.2.2.2.2.1⟩

/-- Claim C10: IntelligentCache::put returns true on every input — and a true
return does not imply the item is present afterwards: with a 100-byte budget
and a 200-byte item, when the clock advanced between the insert and the
eviction scan, the eviction pass removes the item again before put returns,
leaving the cache empty. -/
theorem C10_put_returns_true_unconditionally :
    (∀ (st : IntelligentCache.State) (t1 t2 : Int) (key : String)
        (data : IntelligentCache.VariantV) (sizeHint : Int)
        (metadata : List (String × IntelligentCache.VariantV)),
      (IntelligentCache.put st t1 t2 key data sizeHint metadata).result = true) ∧
    ((IntelligentCache.put ic100 1 2 "x" (.other 0) 200 []).result = true ∧
      IntelligentCache.containsIC
        (IntelligentCache.put ic100 1 2 "x" (.other 0) 200 []).state "x" = false ∧
      (IntelligentCache.put ic100 1 2 "x" (.other 0) 200 []).state.cacheData = []) := by
  refine ⟨fun st t1 t2 key data sizeHint metadata => rfl, rfl, by simp, by simp⟩

end QuantilyxDoc
